import Mathlib

/-!
Verification of the block-construction and proof-of-work pipeline of
`BancoBlockchain.py` (class `IoTBlockchainDB`), as a shallow embedding.

Modelling conventions:
* SHA-256 is abstracted as an oracle `sha : String → String` standing for
  `hashlib.sha256(...).hexdigest()`; `hexToNat` models `int(hexdigest, 16)`.
* Python numbers that can be `int` or `float` are modelled by `PyNum`;
  the float values arising in this program (halved rewards) are dyadic
  rationals, represented exactly by `ℚ`.
* Python dict/list/str/int/None values are modelled by `PyVal`; `pyRepr`
  models Python `str()`/`repr()` of such a value, `jsonDumps` models
  `json.dumps(value, sort_keys=True)`.
* The MongoDB block collection is modelled as the insertion-ordered list
  `LedgerState.blocks`; `count_documents` is its length and
  `find_one({height: h})` is a `List.find?`.
* `time()` is nondeterministic input: the measured duration of the nonce
  search is an explicit parameter `elapsed`; `ctime(time())` is an explicit
  string parameter `ts`.
* Python exceptions are modelled by an `Option PyError` component in the
  result of `mine_for_next_block`, paired with the object state at the
  point where the exception escapes.
-/

set_option maxHeartbeats 1000000
set_option maxRecDepth 8000

/-- `max_nonce = 2 ** 32` from the source header. -/
def max_nonce : Nat := 2 ^ 32

/-- `init_reward = 50` from the source header. -/
def init_reward : Nat := 50

/-- `block_reward_rate = 1000` from the source header. -/
def block_reward_rate : Nat := 1000

/-- `difficulty_bits_block_rate = 100` from the source header. -/
def difficulty_bits_block_rate : Nat := 100

/-- `difficulty_block_rate = 100` from the source header. -/
def difficulty_block_rate : Nat := 100

/-- A Python number that is either an `int` or a `float`.  The floats this
program produces are halvings of 50, all exactly representable, so the
float payload is an exact rational. -/
inductive PyNum where
  | int : Int → PyNum
  | float : ℚ → PyNum
deriving DecidableEq

/-- Numeric value of a `PyNum` (Python compares `int` and `float` by value). -/
def PyNum.toRat : PyNum → ℚ
  | .int n => (n : ℚ)
  | .float q => q

mutual

/-- A Python value as passed to `str()` / `json.dumps`: `None`, numbers,
strings, lists and (insertion-ordered) dicts.  A mutual inductive family
(values / value lists / key-value lists) so that the serializers below are
plain structural recursions. -/
inductive PyVal where
  | none : PyVal
  | int : Int → PyVal
  | float : ℚ → PyVal
  | str : String → PyVal
  | list : PyList → PyVal
  | dict : PyDict → PyVal

/-- The elements of a Python list value. -/
inductive PyList where
  | nil : PyList
  | cons : PyVal → PyList → PyList

/-- The entries of a Python dict value, in insertion order. -/
inductive PyDict where
  | nil : PyDict
  | cons : String → PyVal → PyDict → PyDict

end

/-- Build a `PyList` from a Lean list of values. -/
def pyList : List PyVal → PyList
  | [] => .nil
  | v :: rest => .cons v (pyList rest)

/-- Build a `PyDict` from a Lean list of entries (insertion order). -/
def pyDict : List (String × PyVal) → PyDict
  | [] => .nil
  | (k, v) :: rest => .cons k v (pyDict rest)

/-- `transaction_info` record built by `add_transaction`. -/
structure Transaction where
  sender : String
  recipient : String
  amount : PyNum
deriving DecidableEq

/-- Entry of the pending pool: `{transaction_id, transaction_info}`. -/
structure TxRecord where
  transaction_id : String
  transaction_info : Transaction
deriving DecidableEq

/-- The block dict built by `generate_next_block`, with fields in the order
of the source dict literal.  `previous_hash` is a `String` because the
expression `previous_hash or self.hash_json_object(...)` always evaluates
to a hash string (the hash of `None` when no previous hash is supplied).
`nonce` is `Option Nat` because `calculate_nonce` can return `None` and
`generate_next_block` stores whatever it is given. -/
structure Block where
  previous_block : Nat
  height : Nat
  timestamp : String
  transactions : List TxRecord
  merkle_root : Option String
  number_of_transaction : Nat
  nonce : Option Nat
  previous_hash : String
  block_reward : PyNum
  difficulty_bits : Nat
  difficulty : Nat
  elapsed_time : PyNum
  hash_power : PyNum
deriving DecidableEq

/-- The mutable state of an `IoTBlockchainDB` instance: the persisted block
collection (insertion order) plus the in-memory fields set in `__init__`. -/
structure LedgerState where
  blocks : List Block
  transactions : List TxRecord
  elapsed_time : PyNum
  hash_power : PyNum
deriving DecidableEq

/-- A Python exception escaping `mine_for_next_block`: the `TypeError`
raised by subscripting `None` or by `int(None)`. -/
inductive PyError where
  | typeError : PyError
deriving DecidableEq

/-- Value of a hex digit character (as used by `int(s, 16)` on digests). -/
def hexDigit (c : Char) : Nat :=
  if c.isDigit then c.toNat - 48
  else if 'a' ≤ c ∧ c ≤ 'f' then c.toNat - 87
  else if 'A' ≤ c ∧ c ≤ 'F' then c.toNat - 55
  else 0

/-- `int(s, 16)`: a hex digest string read as an unsigned integer. -/
def hexToNat (s : String) : Nat :=
  s.data.foldl (fun a c => a * 16 + hexDigit c) 0

/-- Decimal digits of `num / den` (`num < den`), at most `fuel` digits.
Exact for the terminating decimal expansions that arise here. -/
def decimalDigits : Nat → Nat → Nat → String
  | 0, _, _ => ""
  | fuel + 1, num, den =>
    if num = 0 then ""
    else toString (num * 10 / den) ++ decimalDigits fuel (num * 10 % den) den

/-- Python `repr` of a float whose value has a terminating decimal
expansion (every float value produced by this program does: they are
halvings of 50).  `repr(25.0) = "25.0"`, `repr(12.5) = "12.5"`. -/
def floatRepr (q : ℚ) : String :=
  (if q < 0 then "-" else "")
    ++ toString (q.num.natAbs / q.den) ++ "."
    ++ (let frac := decimalDigits 40 (q.num.natAbs % q.den) q.den
        if frac = "" then "0" else frac)

mutual

/-- Python `repr` of a `PyVal` (str of any non-string value): `None`,
single-quoted strings, lists and dicts in insertion order. -/
def pyRepr : PyVal → String
  | .none => "None"
  | .int n => toString n
  | .float q => floatRepr q
  | .str s => "\x27" ++ s ++ "\x27"
  | .list l => "[" ++ pyReprList l ++ "]"
  | .dict d => "\x7b" ++ pyReprDict d ++ "\x7d"

/-- Comma-separated `repr` of list elements. -/
def pyReprList : PyList → String
  | .nil => ""
  | .cons v .nil => pyRepr v
  | .cons v (.cons w tl) => pyRepr v ++ ", " ++ pyReprList (.cons w tl)

/-- Comma-separated `repr` of dict entries, `'key': value`. -/
def pyReprDict : PyDict → String
  | .nil => ""
  | .cons k v .nil => "\x27" ++ k ++ "\x27: " ++ pyRepr v
  | .cons k v (.cons k2 v2 tl) =>
    "\x27" ++ k ++ "\x27: " ++ pyRepr v ++ ", " ++ pyReprDict (.cons k2 v2 tl)

end

/-- Python `str()` of a `PyVal`: like `repr` except that a top-level string
is returned unquoted. -/
def pyStr : PyVal → String
  | .str s => s
  | v => pyRepr v

/-- Strict lexicographic order on character lists by code point. -/
def charListLt : List Char → List Char → Bool
  | [], [] => false
  | [], _ :: _ => true
  | _ :: _, [] => false
  | c :: cs, d :: ds =>
    if c.toNat < d.toNat then true
    else if d.toNat < c.toNat then false
    else charListLt cs ds

/-- Python string `<`: code-point lexicographic order. -/
def strLt (a b : String) : Bool := charListLt a.data b.data

/-- Insert a key-value pair into a key-sorted dict (Python sorts dict keys
with `<` on strings). -/
def insertKV (k : String) (v : PyVal) : PyDict → PyDict
  | .nil => .cons k v .nil
  | .cons k2 v2 rest =>
    if strLt k2 k then .cons k2 v2 (insertKV k v rest) else .cons k v (.cons k2 v2 rest)

/-- Sort dict entries by key (insertion sort). -/
def sortKV : PyDict → PyDict
  | .nil => .nil
  | .cons k v rest => insertKV k v (sortKV rest)

mutual

/-- Recursively sort every dict in a `PyVal` by key, modelling the
`sort_keys=True` traversal of `json.dumps`. -/
def sortKeysDeep : PyVal → PyVal
  | .none => .none
  | .int n => .int n
  | .float q => .float q
  | .str s => .str s
  | .list l => .list (sortKeysDeepList l)
  | .dict d => .dict (sortKV (sortKeysDeepDict d))

/-- `sortKeysDeep` on every element of a list. -/
def sortKeysDeepList : PyList → PyList
  | .nil => .nil
  | .cons v tl => .cons (sortKeysDeep v) (sortKeysDeepList tl)

/-- `sortKeysDeep` on every value of a dict. -/
def sortKeysDeepDict : PyDict → PyDict
  | .nil => .nil
  | .cons k v tl => .cons k (sortKeysDeep v) (sortKeysDeepDict tl)

end

mutual

/-- JSON rendering with the `json.dumps` default separators `", "` and
`": "`: `None` becomes `null`, strings are double-quoted.  Applied after
`sortKeysDeep`, this is `json.dumps(v, sort_keys=True)`. -/
def jsonRender : PyVal → String
  | .none => "null"
  | .int n => toString n
  | .float q => floatRepr q
  | .str s => "\x22" ++ s ++ "\x22"
  | .list l => "[" ++ jsonRenderList l ++ "]"
  | .dict d => "\x7b" ++ jsonRenderDict d ++ "\x7d"

/-- Comma-separated JSON rendering of list elements. -/
def jsonRenderList : PyList → String
  | .nil => ""
  | .cons v .nil => jsonRender v
  | .cons v (.cons w tl) => jsonRender v ++ ", " ++ jsonRenderList (.cons w tl)

/-- Comma-separated JSON rendering of dict entries, `"key": value`. -/
def jsonRenderDict : PyDict → String
  | .nil => ""
  | .cons k v .nil => "\x22" ++ k ++ "\x22: " ++ jsonRender v
  | .cons k v (.cons k2 v2 tl) =>
    "\x22" ++ k ++ "\x22: " ++ jsonRender v ++ ", " ++ jsonRenderDict (.cons k2 v2 tl)

end

/-- `json.dumps(v, sort_keys=True)`. -/
def jsonDumps (v : PyVal) : String := jsonRender (sortKeysDeep v)

/-- `hash_json_object`: SHA-256 hex digest of the key-sorted JSON
serialization of a value. -/
def hash_json_object (sha : String → String) (v : PyVal) : String :=
  sha (jsonDumps v)

/-- `hash_string_pair`: SHA-256 hex digest of the concatenation of two
strings. -/
def hash_string_pair (sha : String → String) (string_1 string_2 : String) : String :=
  sha (string_1 ++ string_2)

/-- A `PyNum` as a `PyVal`. -/
def pyNumToPy : PyNum → PyVal
  | .int n => .int n
  | .float q => .float q

/-- The `transaction_info` dict, fields in source construction order. -/
def txInfoToPy (t : Transaction) : PyVal :=
  .dict (pyDict [("sender", .str t.sender), ("recipient", .str t.recipient),
                 ("amount", pyNumToPy t.amount)])

/-- A pending-pool entry as the dict appended by `add_transaction`. -/
def txRecordToPy (r : TxRecord) : PyVal :=
  .dict (pyDict [("transaction_id", .str r.transaction_id),
                 ("transaction_info", txInfoToPy r.transaction_info)])

/-- `merkle_root` slot: `None` or a digest string. -/
def optStrToPy : Option String → PyVal
  | Option.none => .none
  | some s => .str s

/-- `nonce` slot: `None` or an integer. -/
def optNatToPy : Option Nat → PyVal
  | Option.none => .none
  | some n => .int n

/-- A block as the dict built by `generate_next_block`, keys in the order
of the source dict literal (MongoDB preserves field order, and blocks are
fetched with the `_id` projection removed). -/
def blockToPy (b : Block) : PyVal :=
  .dict (pyDict
    [("previous_block", .int b.previous_block),
     ("height", .int b.height),
     ("timestamp", .str b.timestamp),
     ("transactions", .list (pyList (b.transactions.map txRecordToPy))),
     ("merkle_root", optStrToPy b.merkle_root),
     ("number_of_transaction", .int b.number_of_transaction),
     ("nonce", optNatToPy b.nonce),
     ("previous_hash", .str b.previous_hash),
     ("block_reward", pyNumToPy b.block_reward),
     ("difficulty_bits", .int b.difficulty_bits),
     ("difficulty", .int b.difficulty),
     ("elapsed_time", pyNumToPy b.elapsed_time),
     ("hash_power", pyNumToPy b.hash_power)])

/-- `get_last_block()` result (`None` for an empty store) as a `PyVal`. -/
def optBlockToPy : Option Block → PyVal
  | Option.none => .none
  | some b => blockToPy b

/-- One pass of `find_merkle_root`: join disjoint consecutive pairs with
`hash_string_pair`, pairing an odd trailing element with itself (the
`for i in range(0, len - 1, 2)` loop plus the odd-length fixup). -/
def mergePairs (sha : String → String) : List String → List String
  | [] => []
  | [x] => [hash_string_pair sha x x]
  | x :: y :: rest => hash_string_pair sha x y :: mergePairs sha rest

/-- The recursion of `find_merkle_root`, with a structural fuel counter:
each pass at least halves a list of length ≥ 2, so a fuel equal to the
initial list length always suffices and the fuel-exhausted arm is never
reached from `find_merkle_root`. -/
def merkleLoop (sha : String → String) : Nat → List String → Option String
  | _, [] => Option.none
  | _, [x] => some x
  | 0, _ => Option.none
  | fuel + 1, l => merkleLoop sha fuel (mergePairs sha l)

/-- `find_merkle_root`: `None` on an empty list, the element itself for a
singleton, else recursively reduce the pair-joined list. -/
def find_merkle_root (sha : String → String) (transaction_ids : List String) : Option String :=
  merkleLoop sha transaction_ids.length transaction_ids

/-- `get_length()`: `count_documents` on the block collection. -/
def get_length (s : LedgerState) : Nat := s.blocks.length

/-- `get_last_block()`: `find_one({height: get_length()})`. -/
def get_last_block (s : LedgerState) : Option Block :=
  s.blocks.find? (fun b => b.height == get_length s)

/-- `get_genesis_block()`: `find_one({height: 1})`. -/
def get_genesis_block (s : LedgerState) : Option Block :=
  s.blocks.find? (fun b => b.height == 1)

/-- `get_transaction_ids()`: the ids of the pending pool, in pool order. -/
def get_transaction_ids (transactions : List TxRecord) : List String :=
  transactions.map (fun t => t.transaction_id)

/-- `add_transaction(sender, recipient, amount)`: append the record with
`transaction_id = hash_json_object(transaction_info)` to the pool. -/
def add_transaction (sender recipient : String) (amount : PyNum)
    (sha : String → String) (s : LedgerState) : LedgerState :=
  let transaction_info : Transaction := ⟨sender, recipient, amount⟩
  let transaction_id := hash_json_object sha (txInfoToPy transaction_info)
  { s with transactions := s.transactions ++ [⟨transaction_id, transaction_info⟩] }

/-- The non-genesis branch of `calculate_block_reward`, as a function of the
last block's `block_reward` and `height`: halve (float division) when the
reward exceeds 1 and the height is a multiple of `block_reward_rate`; zero
once below 1; else unchanged. -/
def nextBlockReward (current_reward : PyNum) (current_height : Nat) : PyNum :=
  if 1 < current_reward.toRat ∧ current_height % block_reward_rate = 0 then
    PyNum.float (current_reward.toRat / 2)
  else if current_reward.toRat < 1 then PyNum.int 0
  else current_reward

/-- `calculate_block_reward()`: `init_reward` when the store is empty, else
`nextBlockReward` of the last block. -/
def calculate_block_reward (s : LedgerState) : PyNum :=
  match get_last_block s with
  | Option.none => PyNum.int init_reward
  | some last_block => nextBlockReward last_block.block_reward last_block.height

/-- The non-genesis branch of `calculate_difficulty_bits`: increment when
the last height is a multiple of `difficulty_bits_block_rate`. -/
def nextDifficultyBits (current_difficulty_bits current_height : Nat) : Nat :=
  if current_height % difficulty_bits_block_rate = 0 then current_difficulty_bits + 1
  else current_difficulty_bits

/-- `calculate_difficulty_bits()`: 0 when the store is empty, else
`nextDifficultyBits` of the last block. -/
def calculate_difficulty_bits (s : LedgerState) : Nat :=
  match get_last_block s with
  | Option.none => 0
  | some last_block => nextDifficultyBits last_block.difficulty_bits last_block.height

/-- The non-genesis branch of `calculate_difficulty`: when the last height
is a multiple of `difficulty_block_rate`, return `2 ^ (bits + 1)` computed
from a local copy of the last block's bits; else the last difficulty. -/
def nextDifficulty (current_difficulty_bits current_difficulty current_height : Nat) : Nat :=
  if current_height % difficulty_block_rate = 0 then 2 ^ (current_difficulty_bits + 1)
  else current_difficulty

/-- `calculate_difficulty()`: 1 when the store is empty, else
`nextDifficulty` of the last block. -/
def calculate_difficulty (s : LedgerState) : Nat :=
  match get_last_block s with
  | Option.none => 1
  | some last_block =>
    nextDifficulty last_block.difficulty_bits last_block.difficulty last_block.height

/-- Bounded ascending search: the least `n` with `start ≤ n < start + fuel`
and `check n = true`, if any (the `for nonce in range(max_nonce)` loop). -/
def nonceSearch (check : Nat → Bool) : Nat → Nat → Option Nat
  | _, 0 => Option.none
  | start, fuel + 1 => if check start then some start else nonceSearch check (start + 1) fuel

/-- `calculate_nonce(last_block, number_of_bits)`: target
`2 ^ (256 - number_of_bits)`; try nonces `0, 1, ...` below `max_nonce`,
hashing `str(last_block) + str(nonce)` and succeeding on the first digest
below the target; `None` when the bound is exhausted. -/
def calculate_nonce (sha : String → String) (last_block : PyVal)
    (number_of_bits : Nat) : Option Nat :=
  nonceSearch
    (fun nonce =>
      decide (hexToNat (sha (pyStr last_block ++ Nat.repr nonce)) < 2 ^ (256 - number_of_bits)))
    0 max_nonce

/-- `generate_next_block(nonce, previous_hash)`: build the block dict from
the current store and pool, clear the pool and insert the block.  The
`previous_hash` slot is the Python expression
`previous_hash or self.hash_json_object(self.get_last_block())`: the hash
of the last block (the hash of `None` on an empty store) whenever the
argument is `None` or falsy. -/
def generate_next_block (sha : String → String) (ts : String) (nonce : Option Nat)
    (previous_hash : Option String) (s : LedgerState) : Block × LedgerState :=
  let block : Block :=
    { previous_block := get_length s
      height := get_length s + 1
      timestamp := ts
      transactions := s.transactions
      merkle_root := find_merkle_root sha (get_transaction_ids s.transactions)
      number_of_transaction := s.transactions.length
      nonce := nonce
      previous_hash :=
        match previous_hash with
        | some p => if p = "" then hash_json_object sha (optBlockToPy (get_last_block s)) else p
        | Option.none => hash_json_object sha (optBlockToPy (get_last_block s))
      block_reward := calculate_block_reward s
      difficulty_bits := calculate_difficulty_bits s
      difficulty := calculate_difficulty s
      elapsed_time := s.elapsed_time
      hash_power := s.hash_power }
  (block, { s with transactions := [], blocks := s.blocks ++ [block] })

/-- `generate_genesis_block()`: `generate_next_block(previous_hash=None, nonce=0)`. -/
def generate_genesis_block (sha : String → String) (ts : String)
    (s : LedgerState) : LedgerState :=
  (generate_next_block sha ts (some 0) Option.none s).2

/-- `reset()`: drop the block collection (the pending pool is untouched)
and generate the genesis block. -/
def reset (sha : String → String) (ts : String) (s : LedgerState) : LedgerState :=
  generate_genesis_block sha ts { s with blocks := [] }

/-- `mine_for_next_block()`.  Control flow of the source: compute the reward
amount; fetch the last block (subscripting `None` raises on an empty
store); run `calculate_nonce` on it; store the measured `elapsed` time;
when `elapsed > 0`, update `hash_power = int(next_nonce) / elapsed`, which
raises `TypeError` when the search returned `None`; then append the reward
transaction and generate the next block with the found nonce. -/
def mine_for_next_block (sha : String → String) (ts : String) (elapsed : ℚ)
    (s : LedgerState) : Option PyError × LedgerState :=
  let rewardAmount := calculate_block_reward s
  match get_last_block s with
  | Option.none => (some PyError.typeError, s)
  | some last_block =>
    let next_nonce := calculate_nonce sha (blockToPy last_block) last_block.difficulty_bits
    let s1 := { s with elapsed_time := PyNum.float elapsed }
    if 0 < elapsed then
      match next_nonce with
      | Option.none => (some PyError.typeError, s1)
      | some n =>
        let s2 := { s1 with hash_power := PyNum.float ((n : ℚ) / elapsed) }
        let s3 := add_transaction "00000000000000000000x0" "00000000000000000000x1"
          rewardAmount sha s2
        (Option.none, (generate_next_block sha ts (some n) Option.none s3).2)
    else
      let s3 := add_transaction "00000000000000000000x0" "00000000000000000000x1"
        rewardAmount sha s1
      (Option.none, (generate_next_block sha ts next_nonce Option.none s3).2)

/-- Sort key for `sort([(difficulty, -1)])`. -/
def keyDifficulty (b : Block) : ℚ := b.difficulty

/-- Sort key for `sort([(elapsed_time, -1)])`. -/
def keyElapsedTime (b : Block) : ℚ := b.elapsed_time.toRat

/-- Sort key for `sort([(block_reward, -1)])`. -/
def keyBlockReward (b : Block) : ℚ := b.block_reward.toRat

/-- Sort key for `sort([(hash_power, -1)])`. -/
def keyHashPower (b : Block) : ℚ := b.hash_power.toRat

/-- Sort key for `sort([(height, -1)])`. -/
def keyHeight (b : Block) : ℚ := b.height

/-- Sort key for `sort([(nonce, -1)])`.  MongoDB orders a null field below
all numbers; nonces are nonnegative, so `-1` preserves that order. -/
def keyNonce (b : Block) : ℚ :=
  match b.nonce with
  | Option.none => -1
  | some n => n

/-- Sort key for `sort([(number_of_transaction, -1)])`. -/
def keyNumTx (b : Block) : ℚ := b.number_of_transaction

/-- Insert a block into a list sorted descending by `key`. -/
def insertDescBy (key : Block → ℚ) (b : Block) : List Block → List Block
  | [] => [b]
  | c :: rest => if key c < key b then b :: c :: rest else c :: insertDescBy key b rest

/-- Sort blocks descending by `key` (models the collection `sort(field, -1)`). -/
def sortDescBy (key : Block → ℚ) : List Block → List Block
  | [] => []
  | b :: rest => insertDescBy key b (sortDescBy key rest)

/-- `get_top_blocks(state, number)`: dispatch on the `state` string, sort
the collection descending by that field and take `number` blocks; any
other `state` yields `[]`.  Note the singular key `number_of_transaction`,
matching the block field name in the source. -/
def get_top_blocks (state : String) (number : Nat) (s : LedgerState) : List Block :=
  if state = "difficulty" then (sortDescBy keyDifficulty s.blocks).take number
  else if state = "elapsed_time" then (sortDescBy keyElapsedTime s.blocks).take number
  else if state = "block_reward" then (sortDescBy keyBlockReward s.blocks).take number
  else if state = "hash_power" then (sortDescBy keyHashPower s.blocks).take number
  else if state = "height" then (sortDescBy keyHeight s.blocks).take number
  else if state = "nonce" then (sortDescBy keyNonce s.blocks).take number
  else if state = "number_of_transaction" then (sortDescBy keyNumTx s.blocks).take number
  else []

/-- `block_reward` of the block at height `h` along any chain grown from
genesis: genesis gets `init_reward`, and the block at height `h + 1` gets
`nextBlockReward` of the block at height `h` (the store's last block when
it is created).  The value at 0 is junk (heights start at 1). -/
def rewardAt : Nat → PyNum
  | 0 => PyNum.int 0
  | 1 => PyNum.int init_reward
  | h + 2 => nextBlockReward (rewardAt (h + 1)) (h + 1)

/-- `difficulty_bits` of the block at height `h` along any chain grown from
genesis (see `rewardAt`). -/
def bitsAt : Nat → Nat
  | 0 => 0
  | 1 => 0
  | h + 2 => nextDifficultyBits (bitsAt (h + 1)) (h + 1)

/-- `difficulty` of the block at height `h` along any chain grown from
genesis (see `rewardAt`). -/
def diffAt : Nat → Nat
  | 0 => 1
  | 1 => 1
  | h + 2 => nextDifficulty (bitsAt (h + 1)) (diffAt (h + 1)) (h + 1)

/-- Ledger states reachable from the public operations: a `reset` (which
drops the store and seeds the genesis block), followed by any sequence of
`add_transaction` and `mine_for_next_block` calls (a mine that raises
leaves the state it reached).  The hash oracle is fixed across the run. -/
inductive Reachable (sha : String → String) : LedgerState → Prop where
  | reset : ∀ ts s, Reachable sha (reset sha ts s)
  | addtx : ∀ sender recipient amount s, Reachable sha s →
      Reachable sha (add_transaction sender recipient amount sha s)
  | mine : ∀ ts elapsed s, Reachable sha s →
      Reachable sha (mine_for_next_block sha ts elapsed s).2

/-- Height/schedule invariant of a block list: the block at index `i` has
height `i + 1` and the scheduled reward, difficulty bits and difficulty of
that height. -/
def ChainInv (l : List Block) : Prop :=
  ∀ i b, l.get? i = some b →
    b.height = i + 1 ∧ b.block_reward = rewardAt (i + 1) ∧
    b.difficulty_bits = bitsAt (i + 1) ∧ b.difficulty = diffAt (i + 1)

/-- Modelled from the spec: the reward transaction of §4.5 (`mine()`
appends a reward transaction crediting a fixed miner address with the
computed reward). -/
def specRewardTx (sha : String → String) (s : LedgerState) : TxRecord :=
  let transaction_info : Transaction :=
    ⟨"00000000000000000000x0", "00000000000000000000x1", calculate_block_reward s⟩
  ⟨hash_json_object sha (txInfoToPy transaction_info), transaction_info⟩

/-- Modelled from the spec: the pre-nonce candidate record of §4.5
(height, previous_hash, merkle_root over the pool's transaction ids in
pool order including the reward transaction, pending transactions,
timestamp, difficulty fields), which §4.4 says is canonically serialized
for the proof-of-work search.  The source never builds this record before
the search, so it is reconstructed here from the spec's words. -/
def specCandidate (sha : String → String) (ts : String) (s : LedgerState) : PyVal :=
  let pool := s.transactions ++ [specRewardTx sha s]
  .dict (pyDict
    [("height", .int (get_length s + 1)),
     ("previous_hash", .str (hash_json_object sha (optBlockToPy (get_last_block s)))),
     ("merkle_root", optStrToPy (find_merkle_root sha (get_transaction_ids pool))),
     ("transactions", .list (pyList (pool.map txRecordToPy))),
     ("timestamp", .str ts),
     ("difficulty_bits", .int (calculate_difficulty_bits s)),
     ("difficulty", .int (calculate_difficulty s))])

/-- Modelled from the spec: the claimed proof-of-work pre-image for trial
nonce `n` — the canonical (key-sorted) serialization of the pre-nonce
candidate concatenated with the decimal form of `n`. -/
def specPreimage (sha : String → String) (ts : String) (s : LedgerState) (n : Nat) : String :=
  jsonDumps (specCandidate sha ts s) ++ Nat.repr n

/-- The pre-image actually hashed by the search inside `mine()` for trial
nonce `n`: `str(last_block) + str(n)` (lines 190-191 of the source). -/
def minePreimage (last_block : Block) (n : Nat) : String :=
  pyStr (blockToPy last_block) ++ Nat.repr n

/-- A mock hash oracle whose digests read as 0. -/
def shaZero : String → String := fun _ => "0"

/-- A mock hash oracle whose digests read as `2 ^ 256 - 1` (64 `f` digits),
so that the search never beats a target of 255 bits or fewer. -/
def shaF : String → String :=
  fun _ => "ffffffffffffffffffffffffffffffffffffffffffffffffffffffffffffffff"

/-- The state right after `__init__`: no blocks, empty pool, zero timers. -/
def initState : LedgerState := ⟨[], [], PyNum.int 0, PyNum.int 0⟩

/-- The state after `reset()` on a fresh instance under `shaZero`. -/
def sGen : LedgerState := reset shaZero "t0" initState

/-- The genesis block that `reset` seeds under `shaZero` with timestamp
`t0`: note `previous_hash = shaZero "null" = "0"`, not null. -/
def gBlock0 : Block :=
  ⟨0, 1, "t0", [], Option.none, 0, some 0, "0", PyNum.int 50, 0, 1,
    PyNum.int 0, PyNum.int 0⟩

/-- A handcrafted one-block chain whose block has `difficulty_bits = 1`,
so a proof-of-work search under `shaF` exhausts its bound. -/
def bBits1 : Block :=
  ⟨0, 1, "t0", [], Option.none, 0, some 0, "p", PyNum.int 50, 1, 2,
    PyNum.int 0, PyNum.int 0⟩

/-- Ledger state holding `bBits1` with an empty pool. -/
def sBits1 : LedgerState := ⟨[bBits1], [], PyNum.int 0, PyNum.int 0⟩

/-- A pending transaction used to watch the pool across a failing mine. -/
def txA : TxRecord := ⟨"idA", ⟨"a", "b", PyNum.int 1⟩⟩

/-- Ledger state holding `bBits1` with `txA` pending. -/
def sBits1Pool : LedgerState := ⟨[bBits1], [txA], PyNum.int 0, PyNum.int 0⟩

/-- `nonceSearch` success characterization: the result is the least index
in the searched window satisfying `check`. -/
theorem nonceSearch_eq_some (check : Nat → Bool) :
    ∀ (fuel start n : Nat), nonceSearch check start fuel = some n →
      start ≤ n ∧ n < start + fuel ∧ check n = true ∧
      ∀ m, start ≤ m → m < n → check m = false := by
  intro fuel
  induction fuel with
  | zero => intro start n h; simp [nonceSearch] at h
  | succ fuel ih =>
    intro start n h
    rw [nonceSearch] at h
    by_cases hc : check start
    · rw [if_pos hc] at h
      obtain rfl : start = n := by injection h
      exact ⟨le_rfl, by omega, hc, fun m hm1 hm2 => absurd (lt_of_le_of_lt hm1 hm2) (lt_irrefl _)⟩
    · rw [if_neg hc] at h
      obtain ⟨h1, h2, h3, h4⟩ := ih (start + 1) n h
      refine ⟨by omega, by omega, h3, fun m hm1 hm2 => ?_⟩
      rcases Nat.eq_or_lt_of_le hm1 with heq | hlt
      · rw [← heq]; exact Bool.eq_false_iff.mpr hc
      · exact h4 m hlt hm2

/-- `nonceSearch` failure characterization: `none` exactly when no index in
the searched window satisfies `check`. -/
theorem nonceSearch_eq_none (check : Nat → Bool) :
    ∀ (fuel start : Nat), nonceSearch check start fuel = Option.none ↔
      ∀ n, start ≤ n → n < start + fuel → check n = false := by
  intro fuel
  induction fuel with
  | zero =>
    intro start
    constructor
    · intro _ n h1 h2
      omega
    · intro _
      rfl
  | succ fuel ih =>
    intro start
    rw [nonceSearch]
    by_cases hc : check start
    · rw [if_pos hc]
      constructor
      · intro h; exact absurd h (by simp)
      · intro h
        have := h start le_rfl (by omega)
        rw [hc] at this
        exact absurd this (by simp)
    · rw [if_neg hc]
      rw [ih (start + 1)]
      constructor
      · intro h n h1 h2
        rcases Nat.eq_or_lt_of_le h1 with heq | hlt
        · rw [← heq]; exact Bool.eq_false_iff.mpr hc
        · exact h n hlt (by omega)
      · intro h n h1 h2
        exact h n (by omega) (by omega)

/-- Success characterization of `calculate_nonce`: a returned nonce is
below `max_nonce`, its digest beats the target, and no smaller nonce does. -/
theorem calculate_nonce_some (sha : String → String) (last_block : PyVal)
    (number_of_bits n : Nat)
    (h : calculate_nonce sha last_block number_of_bits = some n) :
    n < max_nonce ∧
    hexToNat (sha (pyStr last_block ++ Nat.repr n)) < 2 ^ (256 - number_of_bits) ∧
    ∀ m, m < n →
      ¬ hexToNat (sha (pyStr last_block ++ Nat.repr m)) < 2 ^ (256 - number_of_bits) := by
  obtain ⟨_, h2, h3, h4⟩ := nonceSearch_eq_some _ max_nonce 0 n h
  refine ⟨by omega, of_decide_eq_true h3, fun m hm => ?_⟩
  have := h4 m (Nat.zero_le m) hm
  exact of_decide_eq_false this

/-- Failure characterization of `calculate_nonce`: `None` exactly when no
nonce below `max_nonce` beats the target. -/
theorem calculate_nonce_none (sha : String → String) (last_block : PyVal)
    (number_of_bits : Nat) :
    calculate_nonce sha last_block number_of_bits = Option.none ↔
      ∀ n, n < max_nonce →
        ¬ hexToNat (sha (pyStr last_block ++ Nat.repr n)) < 2 ^ (256 - number_of_bits) := by
  rw [calculate_nonce, nonceSearch_eq_none]
  constructor
  · intro h n hn
    exact of_decide_eq_false (h n (Nat.zero_le n) (by omega))
  · intro h n _ hn
    exact decide_eq_false (h n (by omega))

/-- Unfolding of the reward recurrence at positive heights. -/
theorem rewardAt_succ (h : Nat) (hh : 1 ≤ h) :
    rewardAt (h + 1) = nextBlockReward (rewardAt h) h := by
  match h, hh with
  | k + 1, _ => rfl

/-- Unfolding of the difficulty-bits recurrence at positive heights. -/
theorem bitsAt_succ (h : Nat) (hh : 1 ≤ h) :
    bitsAt (h + 1) = nextDifficultyBits (bitsAt h) h := by
  match h, hh with
  | k + 1, _ => rfl

/-- Unfolding of the difficulty recurrence at positive heights. -/
theorem diffAt_succ (h : Nat) (hh : 1 ≤ h) :
    diffAt (h + 1) = nextDifficulty (bitsAt h) (diffAt h) h := by
  match h, hh with
  | k + 1, _ => rfl

/-- The scheduled reward is 50 at every height from 1 through 1000. -/
theorem rewardAt_le_1000 (h : Nat) (h1 : 1 ≤ h) (h2 : h ≤ 1000) :
    rewardAt h = PyNum.int 50 := by
  induction h, h1 using Nat.le_induction with
  | base => rfl
  | succ h hh ih =>
    have hr := ih (by omega)
    rw [rewardAt_succ h hh, hr, nextBlockReward]
    rw [if_neg, if_neg]
    · intro hc
      norm_num [PyNum.toRat] at hc
    · intro hc
      have : h % block_reward_rate = h := by
        rw [block_reward_rate]
        omega
      rw [this] at hc
      omega

/-- The scheduled reward halves to 25 at height 1001. -/
theorem rewardAt_1001 : rewardAt 1001 = PyNum.float 25 := by
  have h := rewardAt_le_1000 1000 (by omega) (by omega)
  have : rewardAt 1001 = nextBlockReward (rewardAt 1000) 1000 := rewardAt_succ 1000 (by omega)
  rw [this, h, nextBlockReward]
  rw [if_pos]
  · norm_num [PyNum.toRat]
  · constructor
    · norm_num [PyNum.toRat]
    · rfl

/-- The scheduled reward stays 25 at heights 1001 through 2000. -/
theorem rewardAt_le_2000 (h : Nat) (h1 : 1001 ≤ h) (h2 : h ≤ 2000) :
    rewardAt h = PyNum.float 25 := by
  induction h, h1 using Nat.le_induction with
  | base => exact rewardAt_1001
  | succ h hh ih =>
    have hr := ih (by omega)
    rw [rewardAt_succ h (by omega), hr, nextBlockReward]
    rw [if_neg, if_neg]
    · intro hc
      norm_num [PyNum.toRat] at hc
    · intro hc
      have : h % block_reward_rate = h - 1000 := by
        rw [block_reward_rate]
        omega
      rw [this] at hc
      omega

/-- The scheduled reward halves to 12.5 at height 2001. -/
theorem rewardAt_2001 : rewardAt 2001 = PyNum.float (25 / 2) := by
  have h := rewardAt_le_2000 2000 (by omega) (by omega)
  have heq : rewardAt 2001 = nextBlockReward (rewardAt 2000) 2000 := rewardAt_succ 2000 (by omega)
  rw [heq, h, nextBlockReward]
  rw [if_pos]
  · norm_num [PyNum.toRat]
  · constructor
    · norm_num [PyNum.toRat]
    · rfl

/-- Evaluation of `PyNum.toRat` on an `int`. -/
@[simp] theorem PyNum.toRat_int (n : Int) : (PyNum.int n).toRat = (n : ℚ) := rfl

/-- Evaluation of `PyNum.toRat` on a `float`. -/
@[simp] theorem PyNum.toRat_float (q : ℚ) : (PyNum.float q).toRat = q := rfl

/-- A reward already below 1 is zeroed by the next step. -/
theorem nextBlockReward_of_lt_one (r : PyNum) (k : Nat) (hr : r.toRat < 1) :
    nextBlockReward r k = PyNum.int 0 := by
  rw [nextBlockReward, if_neg (fun hc => absurd hc.1 (by linarith)), if_pos hr]

/-- The scheduled reward is never negative. -/
theorem rewardAt_nonneg : ∀ h : Nat, 0 ≤ (rewardAt h).toRat := by
  intro h
  induction h with
  | zero => norm_num [rewardAt]
  | succ h ih =>
    match h with
    | 0 => norm_num [rewardAt, init_reward]
    | k + 1 =>
      rw [rewardAt_succ (k + 1) (by omega), nextBlockReward]
      split
      · rename_i hc
        rw [PyNum.toRat_float]
        linarith [hc.1]
      · split
        · simp
        · exact ih

/-- One step of the reward schedule never increases the reward. -/
theorem rewardAt_step_le (h : Nat) (hh : 1 ≤ h) :
    (rewardAt (h + 1)).toRat ≤ (rewardAt h).toRat := by
  have hnn := rewardAt_nonneg h
  rw [rewardAt_succ h hh, nextBlockReward]
  split
  · rename_i hc
    rw [PyNum.toRat_float]
    linarith [hc.1]
  · split
    · rename_i hc
      rw [PyNum.toRat_int]
      push_cast
      exact hnn
    · exact le_rfl

/-- The reward schedule is non-increasing in height. -/
theorem rewardAt_antitone (h k : Nat) (hh : 1 ≤ h) (hk : h ≤ k) :
    (rewardAt k).toRat ≤ (rewardAt h).toRat := by
  induction k, hk using Nat.le_induction with
  | base => exact le_rfl
  | succ k hk ih =>
    exact le_trans (rewardAt_step_le k (by omega)) ih

/-- Once the scheduled reward is below 1, every later height gets reward
exactly `int 0`. -/
theorem rewardAt_zero_after (h : Nat) (hh : 1 ≤ h) (hlt : (rewardAt h).toRat < 1) :
    ∀ k, h < k → rewardAt k = PyNum.int 0 := by
  intro k hk
  induction k, hk using Nat.le_induction with
  | base =>
    rw [rewardAt_succ h hh]
    exact nextBlockReward_of_lt_one _ h hlt
  | succ k hk ih =>
    rw [rewardAt_succ k (by omega), ih]
    refine nextBlockReward_of_lt_one _ k ?_
    rw [PyNum.toRat_int]
    norm_num

/-- Closed form of the difficulty-bits schedule: `(h - 1) / 100`. -/
theorem bitsAt_closed (h : Nat) (hh : 1 ≤ h) :
    bitsAt h = (h - 1) / difficulty_bits_block_rate := by
  induction h, hh using Nat.le_induction with
  | base => rfl
  | succ h hh ih =>
    rw [bitsAt_succ h hh, nextDifficultyBits, ih]
    rw [difficulty_bits_block_rate] at *
    split
    · rename_i hc
      omega
    · rename_i hc
      omega

/-- The difficulty recurrence always yields `2 ^ bits` of the bits
recurrence, because the two bump their value at the same heights under the
shipped constants. -/
theorem diffAt_eq_pow (h : Nat) (hh : 1 ≤ h) : diffAt h = 2 ^ bitsAt h := by
  induction h, hh using Nat.le_induction with
  | base => rfl
  | succ h hh ih =>
    rw [diffAt_succ h hh, bitsAt_succ h hh, nextDifficulty, nextDifficultyBits]
    rw [difficulty_block_rate, difficulty_bits_block_rate]
    split
    · rfl
    · exact ih

/-- Under the height invariant, `find_one({height: count})` returns the
last inserted block: every earlier block has a smaller height. -/
theorem find?_height (l : List Block) :
    ∀ (k : Nat), (∀ i b, l.get? i = some b → b.height = k + i + 1) →
      l.find? (fun b => b.height == k + l.length) = l.get? (l.length - 1) := by
  induction l with
  | nil => intro k _; rfl
  | cons b0 tl ih =>
    intro k hinv
    have hb0 : b0.height = k + 1 := hinv 0 b0 rfl
    match tl with
    | [] => simp [List.find?_cons, hb0]
    | c :: tl2 =>
      rw [List.find?_cons]
      have hfalse : (b0.height == k + (b0 :: c :: tl2).length) = false := by
        rw [hb0]
        simp only [List.length_cons, beq_eq_false_iff_ne, ne_eq]
        omega
      rw [hfalse]
      have harith : k + (b0 :: c :: tl2).length = (k + 1) + (c :: tl2).length := by
        simp only [List.length_cons]
        omega
      rw [harith]
      have htl : ∀ i b, (c :: tl2).get? i = some b → b.height = (k + 1) + i + 1 := by
        intro i b hb
        have := hinv (i + 1) b hb
        omega
      have := ih (k + 1) htl
      rw [this]
      simp only [List.length_cons]
      rfl

/-- Under `ChainInv`, `get_last_block` returns a block carrying the
scheduled values of the chain tip height. -/
theorem chainInv_last (s : LedgerState) (hinv : ChainInv s.blocks) (hne : s.blocks ≠ []) :
    ∃ lb, get_last_block s = some lb ∧ lb.height = s.blocks.length ∧
      lb.block_reward = rewardAt s.blocks.length ∧
      lb.difficulty_bits = bitsAt s.blocks.length ∧
      lb.difficulty = diffAt s.blocks.length := by
  have hlen : 1 ≤ s.blocks.length := by
    cases h : s.blocks with
    | nil => exact absurd h hne
    | cons a l => simp
  have hfind := find?_height s.blocks 0 (fun i b hb => by simpa using (hinv i b hb).1)
  have hget : ∃ lb, s.blocks.get? (s.blocks.length - 1) = some lb := by
    cases hq : s.blocks.get? (s.blocks.length - 1) with
    | none =>
      rw [List.get?_eq_none] at hq
      omega
    | some lb => exact ⟨lb, rfl⟩
  obtain ⟨lb, hlb⟩ := hget
  obtain ⟨h1, h2, h3, h4⟩ := hinv (s.blocks.length - 1) lb hlb
  have hidx : s.blocks.length - 1 + 1 = s.blocks.length := by omega
  rw [hidx] at h1 h2 h3 h4
  refine ⟨lb, ?_, h1, h2, h3, h4⟩
  rw [get_last_block, get_length]
  have : (fun b : Block => b.height == s.blocks.length) =
      (fun b : Block => b.height == 0 + s.blocks.length) := by
    funext b
    rw [Nat.zero_add]
  rw [this, hfind, hlb]

/-- `generate_next_block` preserves `ChainInv`: the appended block gets
height `count + 1` and the scheduled reward/bits/difficulty of that
height, computed from the stored last block. -/
theorem chainInv_generate (sha : String → String) (ts : String) (nonce : Option Nat)
    (ph : Option String) (s : LedgerState) (hinv : ChainInv s.blocks) :
    ChainInv ((generate_next_block sha ts nonce ph s).2).blocks := by
  intro i b hb
  have hblocks : ((generate_next_block sha ts nonce ph s).2).blocks =
      s.blocks ++ [(generate_next_block sha ts nonce ph s).1] := rfl
  rw [hblocks] at hb
  rcases Nat.lt_trichotomy i s.blocks.length with hlt | heq | hgt
  · rw [List.get?_append hlt] at hb
    exact hinv i b hb
  · subst heq
    rw [List.get?_concat_length] at hb
    injection hb with hb
    subst hb
    by_cases hne : s.blocks = []
    · refine ⟨rfl, ?_, ?_, ?_⟩
      all_goals {
        have hnone : get_last_block s = Option.none := by
          rw [get_last_block, get_length, hne]
          rfl
        show _ = _
        rw [hne]
        first
        | (show calculate_block_reward s = rewardAt ([].length + 1)
           rw [calculate_block_reward, hnone]
           rfl)
        | (show calculate_difficulty_bits s = bitsAt ([].length + 1)
           rw [calculate_difficulty_bits, hnone]
           rfl)
        | (show calculate_difficulty s = diffAt ([].length + 1)
           rw [calculate_difficulty, hnone]
           rfl)
      }
    · have hlen1 : 1 ≤ s.blocks.length := by
        have := List.length_pos.mpr hne
        omega
      obtain ⟨lb, hlb, hh, hr, hbits, hdiff⟩ := chainInv_last s hinv hne
      refine ⟨rfl, ?_, ?_, ?_⟩
      · rw [show (generate_next_block sha ts nonce ph s).1.block_reward =
            calculate_block_reward s from rfl]
        rw [calculate_block_reward, hlb]
        show nextBlockReward lb.block_reward lb.height = rewardAt (s.blocks.length + 1)
        rw [hh, hr, rewardAt_succ s.blocks.length hlen1]
      · rw [show (generate_next_block sha ts nonce ph s).1.difficulty_bits =
            calculate_difficulty_bits s from rfl]
        rw [calculate_difficulty_bits, hlb]
        show nextDifficultyBits lb.difficulty_bits lb.height = bitsAt (s.blocks.length + 1)
        rw [hh, hbits, bitsAt_succ s.blocks.length hlen1]
      · rw [show (generate_next_block sha ts nonce ph s).1.difficulty =
            calculate_difficulty s from rfl]
        rw [calculate_difficulty, hlb]
        show nextDifficulty lb.difficulty_bits lb.difficulty lb.height = diffAt (s.blocks.length + 1)
        rw [hh, hbits, hdiff, diffAt_succ s.blocks.length hlen1]
  · have hlen : (s.blocks ++ [(generate_next_block sha ts nonce ph s).1]).length <= i := by
      simp only [List.length_append, List.length_singleton]
      omega
    rw [List.get?_len_le hlen] at hb
    exact absurd hb (by simp)

/-- Every reachable ledger state satisfies the chain invariant. -/
theorem chainInv_reachable (sha : String → String) (s : LedgerState)
    (hs : Reachable sha s) : ChainInv s.blocks := by
  induction hs with
  | reset ts s0 =>
    apply chainInv_generate
    intro i b hb
    exact absurd hb (by simp)
  | addtx sender recipient amount s0 _ ih =>
    exact ih
  | mine ts elapsed s0 _ ih =>
    rw [mine_for_next_block]
    cases hlast : get_last_block s0 with
    | none => exact ih
    | some lb =>
      simp only []
      by_cases hel : (0:ℚ) < elapsed
      · rw [if_pos hel]
        cases hn : calculate_nonce sha (blockToPy lb) lb.difficulty_bits with
        | none => exact ih
        | some n =>
          simp only []
          exact chainInv_generate sha ts (some n) Option.none _ ih
      · rw [if_neg hel]
        exact chainInv_generate sha ts _ Option.none _ ih

/-- `insertDescBy` grows the list by one element. -/
theorem length_insertDescBy (key : Block → ℚ) (b : Block) :
    ∀ l, (insertDescBy key b l).length = l.length + 1 := by
  intro l
  induction l with
  | nil => rfl
  | cons c rest ih =>
    rw [insertDescBy]
    split
    · rfl
    · simp only [List.length_cons, ih]

/-- `sortDescBy` preserves length. -/
theorem length_sortDescBy (key : Block → ℚ) :
    ∀ l, (sortDescBy key l).length = l.length := by
  intro l
  induction l with
  | nil => rfl
  | cons b rest ih =>
    rw [sortDescBy, length_insertDescBy, ih, List.length_cons]

/-- Membership in an `insertDescBy` result. -/
theorem mem_insertDescBy (key : Block → ℚ) (b x : Block) :
    ∀ l, x ∈ insertDescBy key b l ↔ x = b ∨ x ∈ l := by
  intro l
  induction l with
  | nil => simp [insertDescBy]
  | cons c rest ih =>
    rw [insertDescBy]
    split
    · simp only [List.mem_cons]
    · rw [List.mem_cons, List.mem_cons, ih]
      tauto

/-- `insertDescBy` preserves descending sortedness by `key`. -/
theorem pairwise_insertDescBy (key : Block → ℚ) (b : Block) :
    ∀ l, l.Pairwise (fun a c => key c ≤ key a) →
      (insertDescBy key b l).Pairwise (fun a c => key c ≤ key a) := by
  intro l
  induction l with
  | nil =>
    intro _
    simp [insertDescBy]
  | cons c rest ih =>
    intro hp
    rw [List.pairwise_cons] at hp
    obtain ⟨hc, hrest⟩ := hp
    rw [insertDescBy]
    split
    · rename_i hlt
      rw [List.pairwise_cons]
      constructor
      · intro x hx
        rcases List.mem_cons.mp hx with rfl | hx2
        · exact le_of_lt hlt
        · exact le_trans (hc x hx2) (le_of_lt hlt)
      · rw [List.pairwise_cons]
        exact ⟨hc, hrest⟩
    · rename_i hge
      rw [List.pairwise_cons]
      constructor
      · intro x hx
        rcases (mem_insertDescBy key b x rest).mp hx with rfl | hx2
        · exact le_of_not_lt hge
        · exact hc x hx2
      · exact ih hrest

/-- `sortDescBy` sorts descending by `key`. -/
theorem pairwise_sortDescBy (key : Block → ℚ) :
    ∀ l, (sortDescBy key l).Pairwise (fun a c => key c ≤ key a) := by
  intro l
  induction l with
  | nil => simp [sortDescBy]
  | cons b rest ih =>
    rw [sortDescBy]
    exact pairwise_insertDescBy key b _ ih

/-- A sorted-descending prefix of a non-empty collection is non-empty and
sorted: the shape of every successful `get_top_blocks` branch. -/
theorem top_take_spec (key : Block → ℚ) (l : List Block) (n : Nat)
    (hne : l ≠ []) (hn : 1 ≤ n) :
    (sortDescBy key l).take n ≠ [] ∧
      ((sortDescBy key l).take n).Pairwise (fun a c => key c ≤ key a) := by
  constructor
  · intro hempty
    have h1 : ((sortDescBy key l).take n).length = 0 := by rw [hempty]; rfl
    rw [List.length_take, length_sortDescBy] at h1
    have h2 : 1 ≤ l.length := by
      cases l with
      | nil => exact absurd rfl hne
      | cons a t => simp
    omega
  · exact List.Pairwise.sublist (List.take_sublist n _) (pairwise_sortDescBy key l)

/-- C6: `find_merkle_root` returns null for the empty sequence of digests,
returns the element itself (not re-hashed) for every one-element sequence,
and for all digests A, B, C satisfies
`find_merkle_root [A, B, C] = hash_pair (hash_pair A B) (hash_pair C C)`,
pairs taken in sequence order with an odd trailing element self-paired. -/
theorem find_merkle_root_spec (sha : String → String) (x A B C : String) :
    find_merkle_root sha [] = Option.none ∧
    find_merkle_root sha [x] = some x ∧
    find_merkle_root sha [A, B, C] =
      some (hash_string_pair sha (hash_string_pair sha A B) (hash_string_pair sha C C)) :=
  ⟨rfl, rfl, rfl⟩

/-- C5 (amended): with `difficulty_bits_interval = 100`, along every chain
grown from genesis by repeated mining, difficulty_bits is 0 at heights 1
through 100 and 1 at heights 101 through 200; across the chain the bits
are non-decreasing and increase by exactly 1 exactly when the previous
block's height is a multiple of 100 (the bump lands one block after each
interval boundary, because the new block's bits are computed from the
previous block's height). -/
theorem difficulty_bits_schedule (sha : String → String) (s : LedgerState)
    (hs : Reachable sha s) :
    ∀ b ∈ s.blocks,
      (b.height ≤ 100 → b.difficulty_bits = 0) ∧
      (101 ≤ b.height → b.height ≤ 200 → b.difficulty_bits = 1) ∧
      (∀ b2 ∈ s.blocks, b.height ≤ b2.height → b.difficulty_bits ≤ b2.difficulty_bits) ∧
      (∀ b2 ∈ s.blocks, b2.height = b.height + 1 →
        (b.height % 100 = 0 → b2.difficulty_bits = b.difficulty_bits + 1) ∧
        (b.height % 100 ≠ 0 → b2.difficulty_bits = b.difficulty_bits)) := by
  have hinv := chainInv_reachable sha s hs
  intro b hb
  obtain ⟨i, hi⟩ := List.mem_iff_get?.mp hb
  obtain ⟨hh, _, hbits, _⟩ := hinv i b hi
  have hbc : b.difficulty_bits = (b.height - 1) / 100 := by
    rw [hbits, bitsAt_closed (i + 1) (by omega), difficulty_bits_block_rate, hh]
  refine ⟨?_, ?_, ?_, ?_⟩
  · intro h100
    rw [hbc]
    omega
  · intro h101 h200
    rw [hbc]
    omega
  · intro b2 hb2 hle
    obtain ⟨j, hj⟩ := List.mem_iff_get?.mp hb2
    obtain ⟨hh2, _, hbits2, _⟩ := hinv j b2 hj
    have hbc2 : b2.difficulty_bits = (b2.height - 1) / 100 := by
      rw [hbits2, bitsAt_closed (j + 1) (by omega), difficulty_bits_block_rate, hh2]
    rw [hbc, hbc2]
    omega
  · intro b2 hb2 hstep
    obtain ⟨j, hj⟩ := List.mem_iff_get?.mp hb2
    obtain ⟨hh2, _, hbits2, _⟩ := hinv j b2 hj
    have hbc2 : b2.difficulty_bits = (b2.height - 1) / 100 := by
      rw [hbits2, bitsAt_closed (j + 1) (by omega), difficulty_bits_block_rate, hh2]
    constructor
    · intro hmod
      rw [hbc, hbc2, hstep]
      omega
    · intro hmod
      rw [hbc, hbc2, hstep]
      omega

/-- C4 (amended): with `initial_reward = 50` and
`reward_halving_interval = 1000`, along every chain grown from genesis by
repeated mining, block_reward is 50 at heights 1 through 1000 (including
height 1000), 25 at heights 1001 through 2000, and 12.5 at height 2001:
each halving takes effect one block after the multiple of 1000, because
the new block's reward is computed from the previous block's height. -/
theorem block_reward_schedule (sha : String → String) (s : LedgerState)
    (hs : Reachable sha s) :
    ∀ b ∈ s.blocks,
      (b.height ≤ 1000 → b.block_reward.toRat = 50) ∧
      (1001 ≤ b.height → b.height ≤ 2000 → b.block_reward.toRat = 25) ∧
      (b.height = 2001 → b.block_reward.toRat = 25 / 2) := by
  have hinv := chainInv_reachable sha s hs
  intro b hb
  obtain ⟨i, hi⟩ := List.mem_iff_get?.mp hb
  obtain ⟨hh, hr, _, _⟩ := hinv i b hi
  refine ⟨?_, ?_, ?_⟩
  · intro h1000
    rw [hr, ← hh, rewardAt_le_1000 b.height (by omega) h1000, PyNum.toRat_int]
    norm_num
  · intro h1001 h2000
    rw [hr, ← hh, rewardAt_le_2000 b.height h1001 h2000, PyNum.toRat_float]
  · intro h2001
    rw [hr, ← hh, h2001, rewardAt_2001, PyNum.toRat_float]

/-- C8: along every chain grown from genesis by repeated mining, the
block_reward values are non-increasing in height, never negative, and once
a block's reward is below 1 every later block's reward is exactly 0. -/
theorem block_reward_monotone (sha : String → String) (s : LedgerState)
    (hs : Reachable sha s) :
    ∀ b ∈ s.blocks,
      0 ≤ b.block_reward.toRat ∧
      (∀ b2 ∈ s.blocks, b.height ≤ b2.height → b2.block_reward.toRat ≤ b.block_reward.toRat) ∧
      (b.block_reward.toRat < 1 → ∀ b2 ∈ s.blocks, b.height < b2.height →
        b2.block_reward.toRat = 0) := by
  have hinv := chainInv_reachable sha s hs
  intro b hb
  obtain ⟨i, hi⟩ := List.mem_iff_get?.mp hb
  obtain ⟨hh, hr, _, _⟩ := hinv i b hi
  refine ⟨?_, ?_, ?_⟩
  · rw [hr]
    exact rewardAt_nonneg (i + 1)
  · intro b2 hb2 hle
    obtain ⟨j, hj⟩ := List.mem_iff_get?.mp hb2
    obtain ⟨hh2, hr2, _, _⟩ := hinv j b2 hj
    rw [hr, hr2]
    exact rewardAt_antitone (i + 1) (j + 1) (by omega) (by omega)
  · intro hlt b2 hb2 hgt
    obtain ⟨j, hj⟩ := List.mem_iff_get?.mp hb2
    obtain ⟨hh2, hr2, _, _⟩ := hinv j b2 hj
    rw [hr] at hlt
    rw [hr2, rewardAt_zero_after (i + 1) (by omega) hlt (j + 1) (by omega), PyNum.toRat_int]
    norm_num

/-- C10: under the shipped constants (both difficulty rates equal 100),
every block of every chain grown from the genesis block satisfies
`difficulty = 2 ^ difficulty_bits`, although the two fields are computed
by independent recurrences. -/
theorem difficulty_eq_pow_bits (sha : String → String) (s : LedgerState)
    (hs : Reachable sha s) :
    ∀ b ∈ s.blocks, b.difficulty = 2 ^ b.difficulty_bits := by
  have hinv := chainInv_reachable sha s hs
  intro b hb
  obtain ⟨i, hi⟩ := List.mem_iff_get?.mp hb
  obtain ⟨_, _, hbits, hdiff⟩ := hinv i b hi
  rw [hdiff, hbits, diffAt_eq_pow (i + 1) (by omega)]

/-- C5 counterexample: the claim says difficulty_bits is 1 at height 100,
but the scheduled bits value at height 100 (`bitsAt`, proved equal to the
stored field by `chainInv_reachable`) is 0, not 1. -/
theorem difficulty_bits_schedule_counterexample : bitsAt 100 = 0 ∧ bitsAt 100 ≠ 1 := by
  rw [bitsAt_closed 100 (by omega), difficulty_bits_block_rate]
  norm_num

/-- C5 witness: the genesis block of a freshly reset chain has
difficulty_bits 0, via `difficulty_bits_schedule` at height 1. -/
theorem difficulty_bits_schedule_witness : gBlock0.difficulty_bits = 0 :=
  (difficulty_bits_schedule shaZero sGen (@Reachable.reset shaZero "t0" initState)
    gBlock0 (by decide)).1 (by decide)

/-- C4 counterexample: the claim says the reward at height 1000 is 25, but
the scheduled reward at height 1000 (`rewardAt`, proved equal to the
stored field by `chainInv_reachable`) is 50, not 25. -/
theorem block_reward_schedule_counterexample :
    (rewardAt 1000).toRat = 50 ∧ (rewardAt 1000).toRat ≠ 25 := by
  rw [rewardAt_le_1000 1000 (by omega) (by omega), PyNum.toRat_int]
  norm_num

/-- C4 witness: the genesis block of a freshly reset chain has reward 50,
via `block_reward_schedule` at height 1. -/
theorem block_reward_schedule_witness : gBlock0.block_reward.toRat = 50 :=
  (block_reward_schedule shaZero sGen (@Reachable.reset shaZero "t0" initState)
    gBlock0 (by decide)).1 (by decide)

/-- C8 witness: the genesis block of a freshly reset chain has a
nonnegative reward, via `block_reward_monotone`. -/
theorem block_reward_monotone_witness : 0 ≤ gBlock0.block_reward.toRat :=
  (block_reward_monotone shaZero sGen (@Reachable.reset shaZero "t0" initState)
    gBlock0 (by decide)).1

/-- C10 witness: the genesis block of a freshly reset chain satisfies
`difficulty = 2 ^ difficulty_bits`, via `difficulty_eq_pow_bits`. -/
theorem difficulty_eq_pow_bits_witness : gBlock0.difficulty = 2 ^ gBlock0.difficulty_bits :=
  difficulty_eq_pow_bits shaZero sGen (@Reachable.reset shaZero "t0" initState)
    gBlock0 (by decide)

/-- C1 (code evaluated at the failing input): for every run of `reset()`
starting from an empty store, the genesis block has height 1,
difficulty_bits 0, difficulty 1, block_reward 50 and nonce 0 as claimed —
but its `previous_hash` is `sha("null")`, the SHA-256 digest of the JSON
serialization of `None`, not null: in line 73 of the source,
`previous_hash or self.hash_json_object(self.get_last_block())` evaluates
the hash branch whenever the `previous_hash` argument is `None`, which
contradicts the claim and the function's own docstring (a genesis block
with no previous hash). -/
theorem reset_genesis_fields (sha : String → String) (ts : String) (s : LedgerState)
    (g : Block) (hg : get_genesis_block (reset sha ts s) = some g) :
    g.height = 1 ∧ g.previous_hash = sha "null" ∧ g.difficulty_bits = 0 ∧
    g.difficulty = 1 ∧ g.block_reward = PyNum.int 50 ∧ g.nonce = some 0 := by
  have hgen : get_genesis_block (reset sha ts s) =
      some (generate_next_block sha ts (some 0) Option.none { s with blocks := [] }).1 := by
    rw [get_genesis_block]
    have hb : (reset sha ts s).blocks =
        [(generate_next_block sha ts (some 0) Option.none { s with blocks := [] }).1] := rfl
    rw [hb, List.find?_cons]
    have ht : ((generate_next_block sha ts (some 0) Option.none
        { s with blocks := [] }).1.height == 1) = true := rfl
    rw [ht]
  rw [hgen] at hg
  injection hg with hg
  subst hg
  exact ⟨rfl, rfl, rfl, rfl, rfl, rfl⟩

/-- C1 witness: the concrete genesis block under the `shaZero` oracle,
via `reset_genesis_fields`. -/
theorem reset_genesis_fields_witness :
    gBlock0.height = 1 ∧ gBlock0.previous_hash = shaZero "null" ∧
    gBlock0.difficulty_bits = 0 ∧ gBlock0.difficulty = 1 ∧
    gBlock0.block_reward = PyNum.int 50 ∧ gBlock0.nonce = some 0 :=
  reset_genesis_fields shaZero "t0" initState gBlock0 (by decide)

/-- C2: for every block record and difficulty 0 ≤ d ≤ 256, when
`calculate_nonce` returns n, then n < 2^32, the digest of the pre-image
`str(block) + str(n)` read as a 256-bit integer is strictly below
`2^(256-d)`, and every smaller nonce fails that bound (first success in
ascending order); `calculate_nonce` returns None exactly when no nonce
below 2^32 qualifies. -/
theorem calculate_nonce_correct (sha : String → String) (last_block : PyVal)
    (number_of_bits : Nat) (_hd : number_of_bits ≤ 256) :
    (∀ n, calculate_nonce sha last_block number_of_bits = some n →
      n < max_nonce ∧
      hexToNat (sha (pyStr last_block ++ Nat.repr n)) < 2 ^ (256 - number_of_bits) ∧
      ∀ m, m < n →
        ¬ hexToNat (sha (pyStr last_block ++ Nat.repr m)) < 2 ^ (256 - number_of_bits)) ∧
    (calculate_nonce sha last_block number_of_bits = Option.none ↔
      ∀ n, n < max_nonce →
        ¬ hexToNat (sha (pyStr last_block ++ Nat.repr n)) < 2 ^ (256 - number_of_bits)) :=
  ⟨fun n hn => calculate_nonce_some sha last_block number_of_bits n hn,
   calculate_nonce_none sha last_block number_of_bits⟩

/-- C2 witness: under the `shaZero` oracle and d = 0 the search returns
nonce 0, whose digest beats the target vacuously. -/
theorem calculate_nonce_correct_witness :
    0 < max_nonce ∧
    hexToNat (shaZero (pyStr (blockToPy gBlock0) ++ Nat.repr 0)) < 2 ^ (256 - 0) ∧
    ∀ m, m < 0 → ¬ hexToNat (shaZero (pyStr (blockToPy gBlock0) ++ Nat.repr m)) < 2 ^ (256 - 0) :=
  (calculate_nonce_correct shaZero (blockToPy gBlock0) 0 (by omega)).1 0 (by decide)

/-- C9 (amended): for every non-empty chain and every n ≥ 1,
`get_top_blocks(state, n)` returns a non-empty sequence ordered descending
by the named field for every state among difficulty, elapsed_time,
block_reward, hash_power, height, nonce and number_of_transaction — the
code's key is the singular `number_of_transaction` — and returns the empty
result for every other state string. -/
theorem get_top_blocks_spec (s : LedgerState) (n : Nat)
    (hne : s.blocks ≠ []) (hn : 1 ≤ n) :
    (get_top_blocks "difficulty" n s ≠ [] ∧
      (get_top_blocks "difficulty" n s).Pairwise (fun a b => keyDifficulty b ≤ keyDifficulty a)) ∧
    (get_top_blocks "elapsed_time" n s ≠ [] ∧
      (get_top_blocks "elapsed_time" n s).Pairwise (fun a b => keyElapsedTime b ≤ keyElapsedTime a)) ∧
    (get_top_blocks "block_reward" n s ≠ [] ∧
      (get_top_blocks "block_reward" n s).Pairwise (fun a b => keyBlockReward b ≤ keyBlockReward a)) ∧
    (get_top_blocks "hash_power" n s ≠ [] ∧
      (get_top_blocks "hash_power" n s).Pairwise (fun a b => keyHashPower b ≤ keyHashPower a)) ∧
    (get_top_blocks "height" n s ≠ [] ∧
      (get_top_blocks "height" n s).Pairwise (fun a b => keyHeight b ≤ keyHeight a)) ∧
    (get_top_blocks "nonce" n s ≠ [] ∧
      (get_top_blocks "nonce" n s).Pairwise (fun a b => keyNonce b ≤ keyNonce a)) ∧
    (get_top_blocks "number_of_transaction" n s ≠ [] ∧
      (get_top_blocks "number_of_transaction" n s).Pairwise
        (fun a b => keyNumTx b ≤ keyNumTx a)) ∧
    (∀ st : String, st ∉ (["difficulty", "elapsed_time", "block_reward", "hash_power",
        "height", "nonce", "number_of_transaction"] : List String) →
      get_top_blocks st n s = []) := by
  refine ⟨?_, ?_, ?_, ?_, ?_, ?_, ?_, ?_⟩
  · exact top_take_spec keyDifficulty s.blocks n hne hn
  · exact top_take_spec keyElapsedTime s.blocks n hne hn
  · exact top_take_spec keyBlockReward s.blocks n hne hn
  · exact top_take_spec keyHashPower s.blocks n hne hn
  · exact top_take_spec keyHeight s.blocks n hne hn
  · exact top_take_spec keyNonce s.blocks n hne hn
  · exact top_take_spec keyNumTx s.blocks n hne hn
  · intro st hst
    simp only [List.mem_cons, List.mem_singleton, not_or] at hst
    obtain ⟨h1, h2, h3, h4, h5, h6, h7, -⟩ := hst
    unfold get_top_blocks
    rw [if_neg h1, if_neg h2, if_neg h3, if_neg h4, if_neg h5, if_neg h6, if_neg h7]

/-- C9 counterexample: the claim's accepted set contains the plural
`number_of_transactions`, but on a non-empty chain the code returns the
empty result for it (only the singular spelling is dispatched). -/
theorem get_top_blocks_counterexample :
    sBits1.blocks ≠ [] ∧ get_top_blocks "number_of_transactions" 1 sBits1 = [] :=
  ⟨by decide, by decide⟩

/-- C9 witness: `get_top_blocks "height" 1` on a one-block chain is
non-empty, via `get_top_blocks_spec`. -/
theorem get_top_blocks_spec_witness : get_top_blocks "height" 1 sBits1 ≠ [] :=
  ((get_top_blocks_spec sBits1 1 (by decide) (by decide)).2.2.2.2.1).1

/-- C3 (amended): the bytes hashed by the proof-of-work search inside
`mine()` for trial nonce n are `str(last_block) + str(n)` — Python's repr
of the previous persisted block, not the canonical key-sorted
serialization of the pre-nonce candidate being built: when the search
succeeds with n, the mined block stores exactly that n, and n is the first
nonce whose `minePreimage` digest is below the target. -/
theorem mine_pow_preimage (sha : String → String) (ts : String) (elapsed : ℚ)
    (s : LedgerState) (lb : Block) (n : Nat)
    (hlb : get_last_block s = some lb)
    (hn : calculate_nonce sha (blockToPy lb) lb.difficulty_bits = some n) :
    (∃ nb s2, mine_for_next_block sha ts elapsed s = (Option.none, s2) ∧
       s2.blocks = s.blocks ++ [nb] ∧ nb.nonce = some n) ∧
    hexToNat (sha (minePreimage lb n)) < 2 ^ (256 - lb.difficulty_bits) ∧
    (∀ m, m < n → ¬ hexToNat (sha (minePreimage lb m)) < 2 ^ (256 - lb.difficulty_bits)) := by
  obtain ⟨_, h2, h3⟩ := calculate_nonce_some sha (blockToPy lb) lb.difficulty_bits n hn
  refine ⟨?_, h2, h3⟩
  rw [mine_for_next_block, hlb]
  simp only [hn]
  by_cases hel : (0:ℚ) < elapsed
  · rw [if_pos hel]
    exact ⟨_, _, rfl, rfl, rfl⟩
  · rw [if_neg hel]
    exact ⟨_, _, rfl, rfl, rfl⟩

/-- C3 witness: on the genesis chain under `shaZero`, nonce 0 is found and
its `minePreimage` digest beats the target, via `mine_pow_preimage`. -/
theorem mine_pow_preimage_witness :
    hexToNat (shaZero (minePreimage gBlock0 0)) < 2 ^ (256 - gBlock0.difficulty_bits) :=
  (mine_pow_preimage shaZero "t1" 1 sGen gBlock0 0 (by decide) (by decide)).2.1

/-- C3 counterexample: on the concrete genesis chain the pre-image hashed
by the search (`str(last_block) + str(0)`) differs from the canonical
serialization of the spec's pre-nonce candidate record concatenated with
the same nonce. -/
theorem mine_preimage_counterexample :
    get_last_block sGen = some gBlock0 ∧
    minePreimage gBlock0 0 ≠ specPreimage shaZero "t1" sGen 0 :=
  ⟨by decide, by decide⟩

/-- Under the all-f oracle every digest reads as `2^256 - 1`, so a search
against one difficulty bit exhausts its bound and returns None. -/
theorem calculate_nonce_shaF_bBits1 :
    calculate_nonce shaF (blockToPy bBits1) bBits1.difficulty_bits = Option.none := by
  rw [calculate_nonce_none]
  intro n hn
  simp only [shaF]
  decide

/-- C7 (amended): when the nonce search exhausts its bound and the
measured elapsed time is positive, `mine()` aborts with a `TypeError`
(from `int(None)`) without persisting any block and with the pending pool
exactly as before. -/
theorem mine_notfound_aborts (sha : String → String) (ts : String) (elapsed : ℚ)
    (s : LedgerState) (lb : Block)
    (hlb : get_last_block s = some lb) (hpos : 0 < elapsed)
    (hnone : calculate_nonce sha (blockToPy lb) lb.difficulty_bits = Option.none) :
    (mine_for_next_block sha ts elapsed s).1 = some PyError.typeError ∧
    (mine_for_next_block sha ts elapsed s).2.blocks = s.blocks ∧
    (mine_for_next_block sha ts elapsed s).2.transactions = s.transactions := by
  rw [mine_for_next_block, hlb]
  simp only [hnone]
  rw [if_pos hpos]
  exact ⟨rfl, rfl, rfl⟩

/-- C7 witness: a failing mine over the one-block `bBits1` chain with
elapsed time 1 leaves the pool untouched, via `mine_notfound_aborts`. -/
theorem mine_notfound_aborts_witness :
    (mine_for_next_block shaF "t1" 1 sBits1).2.transactions = sBits1.transactions :=
  (mine_notfound_aborts shaF "t1" 1 sBits1 bBits1 (by decide) (by norm_num)
    calculate_nonce_shaF_bBits1).2.2

/-- C7 counterexample: when the measured elapsed time is 0, the same
exhausted search does not abort: no exception is signalled, a block (with
a null nonce) is persisted, and the pending pool is cleared rather than
preserved. -/
theorem mine_notfound_counterexample :
    sBits1Pool.transactions = [txA] ∧
    (mine_for_next_block shaF "t1" 0 sBits1Pool).1 = Option.none ∧
    (mine_for_next_block shaF "t1" 0 sBits1Pool).2.blocks.length = 2 ∧
    (mine_for_next_block shaF "t1" 0 sBits1Pool).2.transactions = [] := by
  refine ⟨rfl, ?_⟩
  have hlb : get_last_block sBits1Pool = some bBits1 := by decide
  rw [mine_for_next_block, hlb]
  simp only [calculate_nonce_shaF_bBits1]
  rw [if_neg (by norm_num : ¬ (0:ℚ) < 0)]
  exact ⟨rfl, rfl, rfl⟩
